import Mathlib

/-!
Verification of the Daily OHLC Data Puller (`pull_daily_ohlc.py`).

Shallow embedding of the script's core pipeline: range planning
(`calculate_time_range`), fetching with retry/backoff
(`get_historical_ohlc`), normalization (`process_ohlc_data`), Donchian
indicator computation (`calculate_donchian_channels`), merging and
persistence (`save_asset_data`, `recalculate_donchian_for_existing`) and
the per-asset orchestration step of `run`.

Modelling conventions:
* a pandas cell holding a float is `Val := Option ℚ`, with `none` playing
  the role of NaN (produced by `pd.to_numeric(..., errors=coerce)` on an
  unparseable value);
* timestamps are integers counting milliseconds since the epoch, and a
  calendar date (UTC, as produced by `.date()`) is the floor-division of
  the millisecond instant by `msPerDay`;
* file-system state (one CSV per asset) is an `Option (List IndRow)`:
  `none` when the archive file does not exist;
* the remote interaction of one attempt is abstracted as a
  `FetchOutcome`, and the fetch loop is a pure function of the sequence
  of per-attempt outcomes, additionally reporting the back-off delays it
  slept and the number of attempts it made.
-/

namespace DailyOHLC

/-- A pandas cell: `some q` for a parsed number, `none` for NaN. -/
abbrev Val := Option ℚ

/-- A raw JSON field value as it arrives from the remote source: either a
value that `pd.to_numeric` parses to a number, or one it cannot parse
(coerced to NaN by `errors=coerce`). -/
inductive RawVal where
  | num (q : ℚ)
  | malformed
deriving DecidableEq

/-- `pd.to_numeric(col, errors=coerce)` on one cell. -/
def coerceNum : RawVal → Val
  | .num q => some q
  | .malformed => none

/-- One raw candle record `{T, o, h, l, c, v}` from the remote payload.
`T` is epoch milliseconds (an unparseable `T` would raise inside
`pd.to_datetime` and is outside the behaviours the claims reach). -/
structure RawBar where
  T : ℤ
  o : RawVal
  h : RawVal
  l : RawVal
  c : RawVal
  v : RawVal
deriving DecidableEq

/-- A raw batch as a DataFrame: which of the required columns are present
(in pandas a column exists when some record carries the key), plus the
rows. -/
structure RawBatch where
  hasT : Bool
  hasO : Bool
  hasH : Bool
  hasL : Bool
  hasC : Bool
  hasV : Bool
  rows : List RawBar
deriving DecidableEq

/-- The `all(col in df.columns for col in required_columns)` check of
`process_ohlc_data`. -/
def requiredOk (b : RawBatch) : Bool :=
  b.hasT && b.hasO && b.hasH && b.hasL && b.hasC && b.hasV

/-- One normalized archive row: the renamed, typed columns of the CSV
(before indicator columns). -/
structure Row where
  timestamp : ℤ
  open_ : Val
  high : Val
  low : Val
  close : Val
  volume : Val
  asset : String
deriving DecidableEq

instance : Inhabited Row := ⟨⟨0, none, none, none, none, none, ""⟩⟩

/-- An archive row together with its Donchian indicator columns: for each
period `P` the triple `(donchian_high_P, donchian_low_P, donchian_mid_P)`. -/
structure IndRow where
  row : Row
  dons : List (ℕ × (Val × Val × Val))
deriving DecidableEq

instance : Inhabited IndRow := ⟨⟨default, []⟩⟩

/-- `self.donchian_periods` from `__init__`. -/
def donchian_periods : List ℕ := [5, 10, 20, 30, 60, 90, 150, 250, 360]

/-- Maximum of a list of rationals (`none` on the empty list). -/
def listMaxQ : List ℚ → Option ℚ
  | [] => none
  | x :: xs => some (xs.foldl max x)

/-- Minimum of a list of rationals (`none` on the empty list). -/
def listMinQ : List ℚ → Option ℚ
  | [] => none
  | x :: xs => some (xs.foldl min x)

/-- The trailing window of (up to) `P` cells ending at index `i`:
indices `i+1-P .. i`. -/
def window (vals : List Val) (P i : ℕ) : List Val :=
  (vals.take (i + 1)).drop (i + 1 - P)

/-- `col.rolling(window=P, min_periods=P).max()` at index `i`: defined
exactly when the window holds `P` entries, all non-NaN. -/
def rollMax (vals : List Val) (P i : ℕ) : Val :=
  if P ≤ i + 1 ∧ (window vals P i).all (fun v => v.isSome) then
    listMaxQ ((window vals P i).filterMap id)
  else none

/-- `col.rolling(window=P, min_periods=P).min()` at index `i`. -/
def rollMin (vals : List Val) (P i : ℕ) : Val :=
  if P ≤ i + 1 ∧ (window vals P i).all (fun v => v.isSome) then
    listMinQ ((window vals P i).filterMap id)
  else none

/-- Elementwise `(a + b) / 2` with NaN propagation, as in
`(df[high_col] + df[low_col]) / 2`. -/
def vmid : Val → Val → Val
  | some a, some b => some ((a + b) / 2)
  | _, _ => none

/-- The three Donchian cells of period `P` at index `i` of the frame. -/
def donTriple (rows : List Row) (P i : ℕ) : Val × Val × Val :=
  (rollMax (rows.map Row.high) P i,
   rollMin (rows.map Row.low) P i,
   vmid (rollMax (rows.map Row.high) P i) (rollMin (rows.map Row.low) P i))

/-- `calculate_donchian_channels`: attach, to every row of the frame, the
rolling Donchian cells of every configured period. -/
def calculate_donchian_channels (rows : List Row) : List IndRow :=
  (List.range rows.length).map fun i =>
    ⟨rows.getD i default, donchian_periods.map fun P => (P, donTriple rows P i)⟩

/-- Column renaming, `pd.to_numeric(..., errors=coerce)` and the
`df[asset] = asset` tagging of `process_ohlc_data`, for one record. -/
def toRow (asset : String) (rb : RawBar) : Row :=
  ⟨rb.T, coerceNum rb.o, coerceNum rb.h, coerceNum rb.l,
   coerceNum rb.c, coerceNum rb.v, asset⟩

/-- Insert into a list sorted by an integer key. -/
def insertByKey {α : Type} (key : α → ℤ) (x : α) : List α → List α
  | [] => [x]
  | y :: ys => if key x ≤ key y then x :: y :: ys else y :: insertByKey key x ys

/-- `df.sort_values(timestamp)` as a key-based sort. (Order among equal
keys is never relied on in the development.) -/
def sortByKey {α : Type} (key : α → ℤ) : List α → List α
  | [] => []
  | x :: xs => insertByKey key x (sortByKey key xs)

/-- `process_ohlc_data`: empty input stays empty, a batch missing a
required column is rejected whole, and otherwise rows are renamed,
coerced, sorted by timestamp, tagged with the asset and given their
Donchian columns. -/
def process_ohlc_data (b : RawBatch) (asset : String) : List IndRow :=
  if b.rows.isEmpty then []
  else if requiredOk b then
    calculate_donchian_channels (sortByKey Row.timestamp (b.rows.map (toRow asset)))
  else []

/-- The timestamp column of a stored frame. -/
def tsListI (l : List IndRow) : List ℤ := l.map fun r => r.row.timestamp

/-- `df.drop_duplicates(subset=[timestamp], keep=last)`: a row survives
exactly when no later row carries the same timestamp, and surviving rows
keep their relative order. -/
def dropDupKeepLast : List IndRow → List IndRow
  | [] => []
  | r :: rs =>
    if rs.any (fun s => s.row.timestamp == r.row.timestamp) then dropDupKeepLast rs
    else r :: dropDupKeepLast rs

/-- `recalculate_donchian_for_existing`: drop every `donchian_*` column
and recompute all of them over the frame. -/
def recalculate_donchian_for_existing (l : List IndRow) : List IndRow :=
  calculate_donchian_channels (l.map IndRow.row)

/-- `save_asset_data`: nothing is written for an empty frame; with an
existing archive and `full_historical` unset the new frame is merged in
(concatenate, deduplicate keeping the last occurrence, sort, recompute
indicators); otherwise the new frame overwrites the archive. -/
def save_asset_data (arch : Option (List IndRow)) (df : List IndRow)
    (full_historical : Bool) : Option (List IndRow) :=
  if df.isEmpty then arch
  else
    match arch, full_historical with
    | some ex, false =>
        some (recalculate_donchian_for_existing
          (sortByKey (fun r => r.row.timestamp) (dropDupKeepLast (ex ++ df))))
    | _, _ => some df

/-- Result of `calculate_time_range`: either the `(None, None)` sentinel
or a `[startMs, endMs)` request window. -/
inductive RangeResult where
  | noUpdate
  | window (startMs endMs : ℤ)
deriving DecidableEq

/-- Milliseconds per day. -/
def msPerDay : ℤ := 86400000

/-- `calculate_time_range`. `archTs` is the timestamp column of the
existing archive file (`none` when the file does not exist). The UTC
calendar date of an instant is its floor-division by `msPerDay`. -/
def calculate_time_range (full_historical : Bool) (archTs : Option (List ℤ))
    (days_back nowMs : ℤ) : RangeResult :=
  match archTs, full_historical with
  | none, _ => .window (nowMs - 730 * msPerDay) nowMs
  | some _, true => .window (nowMs - 730 * msPerDay) nowMs
  | some ts, false =>
    match ts.getLast? with
    | none => .window (nowMs - days_back * msPerDay) nowMs
    | some last =>
      if Int.fdiv nowMs msPerDay ≤ Int.fdiv last msPerDay then .noUpdate
      else .window ((Int.fdiv last msPerDay + 1) * msPerDay) nowMs

/-- Outcome of one remote attempt inside `get_historical_ohlc`:
a successful JSON list, a successful but non-list body, an
`HTTPError` with the given status, or any other exception. -/
inductive FetchOutcome (α : Type) where
  | ok (d : List α)
  | nonList
  | httpError (status : ℕ)
  | otherError
deriving DecidableEq

/-- The `for attempt in range(max_retries)` loop of `get_historical_ohlc`.
`rem` counts the remaining iterations, `idx` the current attempt index and
`delay` the current back-off. Returns the data, the list of back-off
delays actually slept, and the number of attempts made. -/
def fetchLoop {α : Type} (att : ℕ → FetchOutcome α) :
    ℕ → ℕ → ℕ → List α × List ℕ × ℕ
  | 0, _, _ => ([], [], 0)
  | rem + 1, idx, delay =>
    match att idx with
    | .ok d => if d.isEmpty then ([], [], 1) else (d, [], 1)
    | .nonList => ([], [], 1)
    | .httpError s =>
      if s = 500 ∧ 0 < rem then
        let r := fetchLoop att rem (idx + 1) (delay * 2)
        (r.1, delay :: r.2.1, r.2.2 + 1)
      else ([], [], 1)
    | .otherError => ([], [], 1)

/-- `get_historical_ohlc` with `max_retries = 3` and `retry_delay = 3`. -/
def get_historical_ohlc {α : Type} (att : ℕ → FetchOutcome α) :
    List α × List ℕ × ℕ :=
  fetchLoop att 3 0 3

/-- Effect of one iteration of the per-asset loop in `run`: the archive
after the iteration, whether the asset was appended to
`successful_assets`, and the pacing sleep performed at the end of the
iteration (`none` when the iteration reached `continue` before the
`time.sleep(1.2)`). -/
structure StepResult where
  archive : Option (List IndRow)
  success : Bool
  pace : Option ℚ
deriving DecidableEq

/-- One iteration of the asset loop of `run`: plan the range (skipping,
as a success and without pacing, when the sentinel comes back), then
fetch — an empty fetch marks the asset failed — then normalize and save.
`b` is the batch the fetcher returned for the planned window. -/
def run_asset_step (full_historical : Bool) (days_back nowMs : ℤ) (asset : String)
    (arch : Option (List IndRow)) (b : RawBatch) : StepResult :=
  match calculate_time_range full_historical (arch.map tsListI) days_back nowMs with
  | .noUpdate => ⟨arch, true, none⟩
  | .window _ _ =>
    if b.rows.isEmpty then ⟨arch, false, some (6 / 5)⟩
    else ⟨save_asset_data arch (process_ohlc_data b asset) full_historical,
          true, some (6 / 5)⟩

/-- The inputs of one run, as seen by a single asset: the run mode, the
configured `days_back`, the UTC instant of the run and the batch the
remote source would serve. -/
structure RunInput where
  fh : Bool
  daysBack : ℤ
  nowMs : ℤ
  batch : RawBatch
deriving DecidableEq

/-- Iterated runs over one asset's archive. -/
def runSeq (asset : String) (arch : Option (List IndRow)) :
    List RunInput → Option (List IndRow)
  | [] => arch
  | inp :: rest =>
      runSeq asset (run_asset_step inp.fh inp.daysBack inp.nowMs asset arch inp.batch).archive rest

/-- The archive invariant of the spec: timestamps are unique and strictly
increasing (vacuously true when the file does not exist). -/
def archiveOk (a : Option (List IndRow)) : Prop :=
  (tsListI (a.getD [])).Nodup ∧ (tsListI (a.getD [])).Chain' (· < ·)

instance (a : Option (List IndRow)) : Decidable (archiveOk a) :=
  inferInstanceAs (Decidable (_ ∧ _))

/-! ### Facts about the list maximum / minimum folds -/

theorem foldl_max_mem (xs : List ℚ) (x : ℚ) : xs.foldl max x ∈ x :: xs := by
  induction xs generalizing x with
  | nil => simp
  | cons y ys ih =>
    have h := ih (max x y)
    rcases List.mem_cons.mp h with h | h
    · rw [List.foldl_cons, h]
      rcases max_choice x y with hm | hm <;> simp [hm]
    · simp [List.foldl_cons, h]

theorem le_foldl_max (xs : List ℚ) (x : ℚ) : ∀ y ∈ x :: xs, y ≤ xs.foldl max x := by
  induction xs generalizing x with
  | nil => simp
  | cons z zs ih =>
    intro y hy
    rcases List.mem_cons.mp hy with h | h
    · subst h
      exact le_trans (le_max_left y z) (ih (max y z) _ (List.mem_cons_self _ _))
    · rcases List.mem_cons.mp h with h | h
      · subst h
        exact le_trans (le_max_right x y) (ih (max x y) _ (List.mem_cons_self _ _))
      · exact ih (max x z) _ (List.mem_cons.mpr (Or.inr h))

theorem foldl_min_mem (xs : List ℚ) (x : ℚ) : xs.foldl min x ∈ x :: xs := by
  induction xs generalizing x with
  | nil => simp
  | cons y ys ih =>
    have h := ih (min x y)
    rcases List.mem_cons.mp h with h | h
    · rw [List.foldl_cons, h]
      rcases min_choice x y with hm | hm <;> simp [hm]
    · simp [List.foldl_cons, h]

theorem foldl_min_le (xs : List ℚ) (x : ℚ) : ∀ y ∈ x :: xs, xs.foldl min x ≤ y := by
  induction xs generalizing x with
  | nil => simp
  | cons z zs ih =>
    intro y hy
    rcases List.mem_cons.mp hy with h | h
    · subst h
      exact le_trans (ih (min y z) _ (List.mem_cons_self _ _)) (min_le_left y z)
    · rcases List.mem_cons.mp h with h | h
      · subst h
        exact le_trans (ih (min x y) _ (List.mem_cons_self _ _)) (min_le_right x y)
      · exact ih (min x z) _ (List.mem_cons.mpr (Or.inr h))

theorem listMaxQ_spec {l : List ℚ} (h : l ≠ []) :
    ∃ m, listMaxQ l = some m ∧ m ∈ l ∧ ∀ x ∈ l, x ≤ m := by
  cases l with
  | nil => exact absurd rfl h
  | cons x xs =>
    exact ⟨xs.foldl max x, rfl, foldl_max_mem xs x, le_foldl_max xs x⟩

theorem listMinQ_spec {l : List ℚ} (h : l ≠ []) :
    ∃ m, listMinQ l = some m ∧ m ∈ l ∧ ∀ x ∈ l, m ≤ x := by
  cases l with
  | nil => exact absurd rfl h
  | cons x xs =>
    exact ⟨xs.foldl min x, rfl, foldl_min_mem xs x, foldl_min_le xs x⟩

/-! ### The rolling window -/

theorem length_window {vals : List Val} {P i : ℕ} (hPi : P ≤ i + 1)
    (hi : i < vals.length) : (window vals P i).length = P := by
  simp only [window, List.length_drop, List.length_take]
  omega

theorem mem_window_iff {vals : List Val} {P i : ℕ} (hPi : P ≤ i + 1)
    (hi : i < vals.length) (x : Val) :
    x ∈ window vals P i ↔ ∃ j, i + 1 - P ≤ j ∧ j ≤ i ∧ vals.getD j none = x := by
  constructor
  · intro hx
    rcases List.mem_iff_getElem.mp hx with ⟨k, hk, hkx⟩
    have hkP : k < P := by
      have := @length_window vals P i hPi hi; omega
    refine ⟨i + 1 - P + k, Nat.le_add_right _ _, by omega, ?_⟩
    have hj : i + 1 - P + k < vals.length := by omega
    rw [List.getD_eq_getElem _ _ hj]
    rw [show (window vals P i)[k] = vals[i + 1 - P + k] from ?_] at hkx
    · exact hkx
    · simp only [window]
      rw [List.getElem_drop, List.getElem_take]
  · rintro ⟨j, hj1, hj2, hjx⟩
    have hjlen : j < vals.length := by omega
    rw [List.getD_eq_getElem _ _ hjlen] at hjx
    refine List.mem_iff_getElem.mpr ⟨j - (i + 1 - P), ?_, ?_⟩
    · rw [length_window hPi hi]; omega
    · simp only [window]
      rw [List.getElem_drop, List.getElem_take]
      have he : i + 1 - P + (j - (i + 1 - P)) = j := by omega
      simp only [he]
      exact hjx

theorem window_subset {vals : List Val} {P i : ℕ} : window vals P i ⊆ vals :=
  fun _ hx => List.mem_of_mem_take (List.mem_of_mem_drop hx)

theorem rollMax_eq_none {vals : List Val} {P i : ℕ} (h : i + 1 < P) :
    rollMax vals P i = none := by
  simp only [rollMax]
  rw [if_neg]
  rintro ⟨h1, -⟩
  omega

theorem rollMin_eq_none {vals : List Val} {P i : ℕ} (h : i + 1 < P) :
    rollMin vals P i = none := by
  simp only [rollMin]
  rw [if_neg]
  rintro ⟨h1, -⟩
  omega

theorem windowVals_cond {vals : List Val} {P i : ℕ} (hPi : P ≤ i + 1)
    (hi : i < vals.length) (hall : ∀ v ∈ vals, v ≠ none) :
    (window vals P i).all (fun v => v.isSome) = true := by
  rw [List.all_eq_true]
  intro v hv
  exact Option.isSome_iff_ne_none.mpr (hall v (window_subset hv))

theorem window_filterMap_ne_nil {vals : List Val} {P i : ℕ} (hP1 : 1 ≤ P)
    (hPi : P ≤ i + 1) (hi : i < vals.length) (hall : ∀ v ∈ vals, v ≠ none) :
    (window vals P i).filterMap id ≠ [] := by
  have hlen : (window vals P i).length = P := length_window hPi hi
  have hne : window vals P i ≠ [] := by
    intro h; rw [h] at hlen; simp at hlen; omega
  rcases List.exists_mem_of_ne_nil _ hne with ⟨v, hv⟩
  rcases Option.isSome_iff_exists.mp
      (Option.isSome_iff_ne_none.mpr (hall v (window_subset hv))) with ⟨q, hq⟩
  intro hcon
  have : q ∈ (window vals P i).filterMap id :=
    List.mem_filterMap.mpr ⟨some q, hq ▸ hv, rfl⟩
  rw [hcon] at this
  exact List.not_mem_nil q this

theorem mem_window_filterMap {vals : List Val} {P i : ℕ} (x : ℚ) :
    x ∈ (window vals P i).filterMap id ↔ some x ∈ window vals P i := by
  rw [List.mem_filterMap]
  constructor
  · rintro ⟨a, ha, rfl⟩; exact ha
  · intro h; exact ⟨some x, h, rfl⟩

theorem rollMax_spec {vals : List Val} {P i : ℕ} (hP1 : 1 ≤ P) (hPi : P ≤ i + 1)
    (hi : i < vals.length) (hall : ∀ v ∈ vals, v ≠ none) :
    ∃ a, rollMax vals P i = some a ∧
      (∃ j, i + 1 - P ≤ j ∧ j ≤ i ∧ vals.getD j none = some a) ∧
      (∀ j, i + 1 - P ≤ j → j ≤ i → ∃ q, vals.getD j none = some q ∧ q ≤ a) := by
  have hcond : P ≤ i + 1 ∧ (window vals P i).all (fun v => v.isSome) = true :=
    ⟨hPi, windowVals_cond hPi hi hall⟩
  rcases listMaxQ_spec (window_filterMap_ne_nil hP1 hPi hi hall) with ⟨m, hm, hmem, hub⟩
  refine ⟨m, ?_, ?_, ?_⟩
  · simp only [rollMax, if_pos hcond]; exact hm
  · exact (mem_window_iff hPi hi (some m)).mp ((mem_window_filterMap m).mp hmem)
  · intro j hj1 hj2
    have hjlen : j < vals.length := by omega
    have hmemw : vals.getD j none ∈ window vals P i :=
      (mem_window_iff hPi hi _).mpr ⟨j, hj1, hj2, rfl⟩
    have hnn : vals.getD j none ≠ none := by
      rw [List.getD_eq_getElem _ _ hjlen]
      exact hall _ (List.getElem_mem hjlen)
    rcases Option.isSome_iff_exists.mp (Option.isSome_iff_ne_none.mpr hnn) with ⟨q, hq⟩
    refine ⟨q, hq, hub q ?_⟩
    exact (mem_window_filterMap q).mpr (hq ▸ hmemw)

theorem rollMin_spec {vals : List Val} {P i : ℕ} (hP1 : 1 ≤ P) (hPi : P ≤ i + 1)
    (hi : i < vals.length) (hall : ∀ v ∈ vals, v ≠ none) :
    ∃ a, rollMin vals P i = some a ∧
      (∃ j, i + 1 - P ≤ j ∧ j ≤ i ∧ vals.getD j none = some a) ∧
      (∀ j, i + 1 - P ≤ j → j ≤ i → ∃ q, vals.getD j none = some q ∧ a ≤ q) := by
  have hcond : P ≤ i + 1 ∧ (window vals P i).all (fun v => v.isSome) = true :=
    ⟨hPi, windowVals_cond hPi hi hall⟩
  rcases listMinQ_spec (window_filterMap_ne_nil hP1 hPi hi hall) with ⟨m, hm, hmem, hlb⟩
  refine ⟨m, ?_, ?_, ?_⟩
  · simp only [rollMin, if_pos hcond]; exact hm
  · exact (mem_window_iff hPi hi (some m)).mp ((mem_window_filterMap m).mp hmem)
  · intro j hj1 hj2
    have hjlen : j < vals.length := by omega
    have hmemw : vals.getD j none ∈ window vals P i :=
      (mem_window_iff hPi hi _).mpr ⟨j, hj1, hj2, rfl⟩
    have hnn : vals.getD j none ≠ none := by
      rw [List.getD_eq_getElem _ _ hjlen]
      exact hall _ (List.getElem_mem hjlen)
    rcases Option.isSome_iff_exists.mp (Option.isSome_iff_ne_none.mpr hnn) with ⟨q, hq⟩
    refine ⟨q, hq, hlb q ?_⟩
    exact (mem_window_filterMap q).mpr (hq ▸ hmemw)

/-! ### The Donchian frame -/

theorem length_calc (rows : List Row) :
    (calculate_donchian_channels rows).length = rows.length := by
  simp [calculate_donchian_channels]

theorem getD_calc {rows : List Row} {i : ℕ} (hi : i < rows.length) :
    (calculate_donchian_channels rows).getD i default =
      ⟨rows.getD i default, donchian_periods.map fun P => (P, donTriple rows P i)⟩ := by
  have hi2 : i < (calculate_donchian_channels rows).length := by
    rw [length_calc]; exact hi
  rw [List.getD_eq_getElem _ _ hi2]
  simp [calculate_donchian_channels]

theorem calc_map_row (rows : List Row) :
    (calculate_donchian_channels rows).map IndRow.row = rows := by
  apply List.ext_getElem
  · simp [length_calc]
  · intro n h1 h2
    simp [calculate_donchian_channels, List.getElem?_eq_getElem h2]

theorem tsListI_calc (rows : List Row) :
    tsListI (calculate_donchian_channels rows) = rows.map Row.timestamp := by
  have : tsListI (calculate_donchian_channels rows) =
      ((calculate_donchian_channels rows).map IndRow.row).map Row.timestamp := by
    simp [tsListI, List.map_map]
  rw [this, calc_map_row]

/-! ### Sorting by a key -/

theorem perm_insertByKey {α : Type} (key : α → ℤ) (x : α) (l : List α) :
    (insertByKey key x l).Perm (x :: l) := by
  induction l with
  | nil => exact List.Perm.refl _
  | cons y ys ih =>
    by_cases h : key x ≤ key y
    · simp [insertByKey, h]
    · simp only [insertByKey, if_neg h]
      exact (ih.cons y).trans (List.Perm.swap x y ys)

theorem perm_sortByKey {α : Type} (key : α → ℤ) (l : List α) :
    (sortByKey key l).Perm l := by
  induction l with
  | nil => exact List.Perm.refl _
  | cons x xs ih =>
    exact (perm_insertByKey key x (sortByKey key xs)).trans (ih.cons x)

theorem pairwise_le_insertByKey {α : Type} (key : α → ℤ) (x : α) {l : List α}
    (h : l.Pairwise (fun a b => key a ≤ key b)) :
    (insertByKey key x l).Pairwise (fun a b => key a ≤ key b) := by
  induction l with
  | nil => simp [insertByKey]
  | cons y ys ih =>
    rcases List.pairwise_cons.mp h with ⟨hy, hys⟩
    by_cases hxy : key x ≤ key y
    · simp only [insertByKey, if_pos hxy]
      refine List.pairwise_cons.mpr ⟨?_, h⟩
      intro z hz
      rcases List.mem_cons.mp hz with hz2 | hz2
      · subst hz2; exact hxy
      · exact le_trans hxy (hy z hz2)
    · simp only [insertByKey, if_neg hxy]
      refine List.pairwise_cons.mpr ⟨?_, ih hys⟩
      intro z hz
      rcases List.mem_cons.mp ((perm_insertByKey key x ys).mem_iff.mp hz) with hz2 | hz2
      · subst hz2; exact le_of_not_le hxy
      · exact hy z hz2

theorem pairwise_le_sortByKey {α : Type} (key : α → ℤ) (l : List α) :
    (sortByKey key l).Pairwise (fun a b => key a ≤ key b) := by
  induction l with
  | nil => simp [sortByKey]
  | cons x xs ih => exact pairwise_le_insertByKey key x ih

theorem pairwise_lt_of_le_nodup {l : List ℤ} (h1 : l.Pairwise (· ≤ ·))
    (h2 : l.Nodup) : l.Pairwise (· < ·) :=
  (h1.and h2).imp fun h => lt_of_le_of_ne h.1 h.2

/-! ### Deduplication keeping the last occurrence -/

theorem tsListI_nil : tsListI [] = [] := rfl

theorem tsListI_cons (r : IndRow) (rs : List IndRow) :
    tsListI (r :: rs) = r.row.timestamp :: tsListI rs := rfl

theorem tsListI_append (a b : List IndRow) :
    tsListI (a ++ b) = tsListI a ++ tsListI b := by
  simp [tsListI]

theorem dropDup_cons_pos {r : IndRow} {rs : List IndRow}
    (h : rs.any (fun s => s.row.timestamp == r.row.timestamp) = true) :
    dropDupKeepLast (r :: rs) = dropDupKeepLast rs := by
  simp only [dropDupKeepLast, h, if_true]

theorem dropDup_cons_neg {r : IndRow} {rs : List IndRow}
    (h : rs.any (fun s => s.row.timestamp == r.row.timestamp) = false) :
    dropDupKeepLast (r :: rs) = r :: dropDupKeepLast rs := by
  simp only [dropDupKeepLast, h, Bool.false_eq_true, if_false]

theorem dropDup_sublist (l : List IndRow) : (dropDupKeepLast l).Sublist l := by
  induction l with
  | nil => simp [dropDupKeepLast]
  | cons r rs ih =>
    rcases Bool.eq_false_or_eq_true (rs.any (fun s => s.row.timestamp == r.row.timestamp))
      with h | h
    · rw [dropDup_cons_pos h]
      exact ih.cons r
    · rw [dropDup_cons_neg h]
      exact ih.cons₂ r

theorem nodup_ts_dropDup (l : List IndRow) : (tsListI (dropDupKeepLast l)).Nodup := by
  induction l with
  | nil => simp [dropDupKeepLast, tsListI]
  | cons r rs ih =>
    rcases Bool.eq_false_or_eq_true (rs.any (fun s => s.row.timestamp == r.row.timestamp))
      with h | h
    · rw [dropDup_cons_pos h]
      exact ih
    · rw [dropDup_cons_neg h, tsListI_cons]
      refine List.nodup_cons.mpr ⟨?_, ih⟩
      intro hmem
      rcases List.mem_map.mp hmem with ⟨s, hs, hts⟩
      have hsrs : s ∈ rs := (dropDup_sublist rs).subset hs
      have hcon : rs.any (fun s => s.row.timestamp == r.row.timestamp) = true := by
        rw [List.any_eq_true]
        exact ⟨s, hsrs, by simp [hts]⟩
      rw [hcon] at h
      cases h

theorem dropDup_eq_self {l : List IndRow} (h : (tsListI l).Nodup) :
    dropDupKeepLast l = l := by
  induction l with
  | nil => simp [dropDupKeepLast]
  | cons r rs ih =>
    rw [tsListI_cons] at h
    rcases List.nodup_cons.mp h with ⟨hr, hrs⟩
    have hany : rs.any (fun s => s.row.timestamp == r.row.timestamp) = false := by
      rw [List.any_eq_false]
      intro s hs
      simp only [beq_iff_eq]
      intro hts
      exact hr (List.mem_map.mpr ⟨s, hs, hts⟩)
    rw [dropDup_cons_neg hany, ih hrs]

theorem dropDup_append {xs ys : List IndRow} (hx : (tsListI xs).Nodup)
    (hy : (tsListI ys).Nodup) :
    dropDupKeepLast (xs ++ ys) =
      xs.filter (fun r => !(ys.any (fun s => s.row.timestamp == r.row.timestamp))) ++ ys := by
  induction xs with
  | nil => simpa using dropDup_eq_self hy
  | cons x xs ih =>
    rw [tsListI_cons] at hx
    rcases List.nodup_cons.mp hx with ⟨hxx, hxs⟩
    have hxany : xs.any (fun s => s.row.timestamp == x.row.timestamp) = false := by
      rw [List.any_eq_false]
      intro s hs
      simp only [beq_iff_eq]
      intro hts
      exact hxx (List.mem_map.mpr ⟨s, hs, hts⟩)
    have hsplit : (xs ++ ys).any (fun s => s.row.timestamp == x.row.timestamp) =
        ys.any (fun s => s.row.timestamp == x.row.timestamp) := by
      rw [List.any_append, hxany, Bool.false_or]
    rcases Bool.eq_false_or_eq_true (ys.any (fun s => s.row.timestamp == x.row.timestamp))
      with hys | hys
    · rw [List.cons_append, dropDup_cons_pos (hsplit.trans hys), ih hxs]
      rw [List.filter_cons_of_neg (by rw [hys]; simp)]
    · rw [List.cons_append, dropDup_cons_neg (hsplit.trans hys), ih hxs]
      rw [List.filter_cons_of_pos (by rw [hys]; rfl), List.cons_append]

/-! ### Normalization and persistence -/

theorem process_eq {b : RawBatch} {asset : String} (hreq : requiredOk b = true)
    (hne : b.rows ≠ []) :
    process_ohlc_data b asset =
      calculate_donchian_channels (sortByKey Row.timestamp (b.rows.map (toRow asset))) := by
  have hb : b.rows.isEmpty = false := List.isEmpty_eq_false.mpr hne
  simp [process_ohlc_data, hb, hreq]

theorem process_empty_of_not_required {b : RawBatch} (asset : String)
    (hreq : requiredOk b = false) : process_ohlc_data b asset = [] := by
  rcases Bool.eq_false_or_eq_true b.rows.isEmpty with hb | hb <;>
    simp [process_ohlc_data, hb, hreq]

theorem process_length {b : RawBatch} {asset : String} (hreq : requiredOk b = true)
    (hne : b.rows ≠ []) :
    (process_ohlc_data b asset).length = b.rows.length := by
  rw [process_eq hreq hne, length_calc,
    (perm_sortByKey Row.timestamp (b.rows.map (toRow asset))).length_eq,
    List.length_map]

theorem process_ne_nil {b : RawBatch} {asset : String} (hreq : requiredOk b = true)
    (hne : b.rows ≠ []) : process_ohlc_data b asset ≠ [] := by
  intro h
  have hl := @process_length b asset hreq hne
  rw [h] at hl
  exact hne (List.length_eq_zero.mp hl.symm)

theorem ts_process_perm {b : RawBatch} {asset : String} (hreq : requiredOk b = true)
    (hne : b.rows ≠ []) :
    (tsListI (process_ohlc_data b asset)).Perm (b.rows.map RawBar.T) := by
  rw [process_eq hreq hne, tsListI_calc]
  have h1 : ((sortByKey Row.timestamp (b.rows.map (toRow asset))).map Row.timestamp).Perm
      ((b.rows.map (toRow asset)).map Row.timestamp) :=
    (perm_sortByKey Row.timestamp (b.rows.map (toRow asset))).map Row.timestamp
  have h2 : (b.rows.map (toRow asset)).map Row.timestamp = b.rows.map RawBar.T := by
    rw [List.map_map]; rfl
  rw [h2] at h1
  exact h1

theorem save_empty (arch : Option (List IndRow)) (full_historical : Bool) :
    save_asset_data arch [] full_historical = arch := by
  simp [save_asset_data]

theorem save_merge {ex df : List IndRow} (hne : df ≠ []) :
    save_asset_data (some ex) df false =
      some (recalculate_donchian_for_existing
        (sortByKey (fun r => r.row.timestamp) (dropDupKeepLast (ex ++ df)))) := by
  have hb : df.isEmpty = false := List.isEmpty_eq_false.mpr hne
  simp [save_asset_data, hb]

theorem save_overwrite {arch : Option (List IndRow)} {df : List IndRow}
    {full_historical : Bool} (hne : df ≠ [])
    (hov : arch = none ∨ full_historical = true) :
    save_asset_data arch df full_historical = some df := by
  have hb : df.isEmpty = false := List.isEmpty_eq_false.mpr hne
  rcases hov with h | h
  · subst h
    cases full_historical <;> simp [save_asset_data, hb]
  · subst h
    cases arch <;> simp [save_asset_data, hb]

theorem fetchLoop_unfold {α : Type} (att : ℕ → FetchOutcome α) (rem idx delay : ℕ) :
    fetchLoop att (rem + 1) idx delay =
      match att idx with
      | .ok d => if d.isEmpty then ([], [], 1) else (d, [], 1)
      | .nonList => ([], [], 1)
      | .httpError s =>
        if s = 500 ∧ 0 < rem then
          let r := fetchLoop att rem (idx + 1) (delay * 2)
          (r.1, delay :: r.2.1, r.2.2 + 1)
        else ([], [], 1)
      | .otherError => ([], [], 1) := rfl

/-! ### The claims -/

/-- C4: with `fullHistorical` unset and an existing, parseable archive,
`calculate_time_range` returns the "no update needed" sentinel exactly
when the archive's last stored date is at least today's UTC date, and
otherwise returns the window from midnight of the day after the last
stored date up to now; when the last stored date is yesterday, the window
starts at today's midnight. -/
theorem C4_range_planner (ts : List ℤ) (days_back nowMs : ℤ) (hne : ts ≠ []) :
    (calculate_time_range false (some ts) days_back nowMs = RangeResult.noUpdate ↔
      Int.fdiv nowMs msPerDay ≤ Int.fdiv (ts.getLast hne) msPerDay) ∧
    (Int.fdiv (ts.getLast hne) msPerDay < Int.fdiv nowMs msPerDay →
      calculate_time_range false (some ts) days_back nowMs =
        RangeResult.window ((Int.fdiv (ts.getLast hne) msPerDay + 1) * msPerDay) nowMs) ∧
    (Int.fdiv (ts.getLast hne) msPerDay + 1 = Int.fdiv nowMs msPerDay →
      calculate_time_range false (some ts) days_back nowMs =
        RangeResult.window (Int.fdiv nowMs msPerDay * msPerDay) nowMs) := by
  have hlast : ts.getLast? = some (ts.getLast hne) := List.getLast?_eq_getLast ts hne
  by_cases hle : Int.fdiv nowMs msPerDay ≤ Int.fdiv (ts.getLast hne) msPerDay
  · refine ⟨⟨fun _ => hle, fun _ => ?_⟩, fun hlt => absurd hle (not_le.mpr hlt), fun heq => ?_⟩
    · simp [calculate_time_range, hlast, hle]
    · omega
  · refine ⟨⟨fun hcon => ?_, fun h => absurd h hle⟩, fun _ => ?_, fun heq => ?_⟩
    · simp [calculate_time_range, hlast, hle] at hcon
    · simp [calculate_time_range, hlast, hle]
    · have := heq
      simp [calculate_time_range, hlast, hle, heq]

/-- C4 witness: archive whose last bar is day 1, planning on day 2
("yesterday's data stored"): the window starts at day 2's midnight. -/
theorem C4_range_planner_witness :
    (([0, msPerDay] : List ℤ) ≠ []) ∧
    calculate_time_range false (some [0, msPerDay]) 1 (2 * msPerDay + 7) =
      RangeResult.window (2 * msPerDay) (2 * msPerDay + 7) := by
  refine ⟨by decide, ?_⟩
  have h := (C4_range_planner [0, msPerDay] 1 (2 * msPerDay + 7) (by decide)).2.2
  have hd : Int.fdiv (([0, msPerDay] : List ℤ).getLast (by decide)) msPerDay + 1 =
      Int.fdiv (2 * msPerDay + 7) msPerDay := by decide
  have h2 := h hd
  rw [show Int.fdiv (2 * msPerDay + 7) msPerDay * msPerDay = 2 * msPerDay by decide] at h2
  exact h2

/-- C5 counterexample: with every attempt failing as HTTP 500 the loop
sleeps only twice (3 and 6 units, not 3, 6 and 12), and a 503 — inside
the claimed "5xx class" — is not retried at all: a single attempt. -/
theorem C5_counterexample :
    get_historical_ohlc (fun _ => (FetchOutcome.httpError 500 : FetchOutcome ℕ)) =
      ([], [3, 6], 3) ∧
    get_historical_ohlc (fun _ => (FetchOutcome.httpError 503 : FetchOutcome ℕ)) =
      ([], [], 1) ∧
    ([3, 6] : List ℕ) ≠ [3, 6, 12] := by
  refine ⟨by decide, by decide, by decide⟩

/-- C5 amended: when every attempt fails with HTTP 500 (the only status
the code retries), the fetcher makes exactly 3 attempts separated by two
back-off delays of 3 and 6 time units (the delay doubles to 12 but is
never slept, no attempt following), and returns an empty result rather
than raising. -/
theorem C5_retry_amended {α : Type} (att : ℕ → FetchOutcome α)
    (h : ∀ k, k < 3 → att k = FetchOutcome.httpError 500) :
    get_historical_ohlc att = ([], [3, 6], 3) := by
  have h0 := h 0 (by omega)
  have h1 := h 1 (by omega)
  have h2 := h 2 (by omega)
  have e2 : fetchLoop att 1 2 12 = ([], [], 1) := by
    rw [show (1 : ℕ) = 0 + 1 from rfl, fetchLoop_unfold, h2]
    simp
  have e1 : fetchLoop att 2 1 6 = ([], [6], 2) := by
    rw [show (2 : ℕ) = 1 + 1 from rfl, fetchLoop_unfold, h1]
    simp [e2]
  have e0 : fetchLoop att 3 0 3 = ([], [3, 6], 3) := by
    rw [show (3 : ℕ) = 2 + 1 from rfl, fetchLoop_unfold, h0]
    simp [e1]
  exact e0

/-- C5 witness: the amended statement at the constant-500 attempt map. -/
theorem C5_retry_amended_witness :
    get_historical_ohlc (fun _ => (FetchOutcome.httpError 500 : FetchOutcome Unit)) =
      ([], [3, 6], 3) :=
  C5_retry_amended _ (fun _ _ => rfl)

/-- C6: for an asset whose archive is up to date (its last stored date is
at least today's), the planner returns the sentinel and the run step
leaves the persisted archive unchanged while marking the asset a
success; and whenever the fetch returns empty, nothing is saved either. -/
theorem C6_idempotent (days_back nowMs : ℤ) (asset : String) (l : List IndRow)
    (last : ℤ) (b : RawBatch)
    (hlast : (tsListI l).getLast? = some last)
    (hup : Int.fdiv nowMs msPerDay ≤ Int.fdiv last msPerDay) :
    calculate_time_range false ((some l).map tsListI) days_back nowMs =
      RangeResult.noUpdate ∧
    (run_asset_step false days_back nowMs asset (some l) b).archive = some l ∧
    (run_asset_step false days_back nowMs asset (some l) b).success = true ∧
    (∀ (arch2 : Option (List IndRow)) (b2 : RawBatch), b2.rows = [] →
      (run_asset_step false days_back nowMs asset arch2 b2).archive = arch2) := by
  have hcr : calculate_time_range false (some (tsListI l)) days_back nowMs =
      RangeResult.noUpdate := by
    simp [calculate_time_range, hlast, hup]
  refine ⟨by simpa using hcr, ?_, ?_, ?_⟩
  · simp [run_asset_step, hcr]
  · simp [run_asset_step, hcr]
  · intro arch2 b2 hb2
    have hbe : b2.rows.isEmpty = true := List.isEmpty_iff.mpr hb2
    rcases hcr2 : calculate_time_range false (arch2.map tsListI) days_back nowMs
      with _ | ⟨s, e⟩
    · simp [run_asset_step, hcr2]
    · simp [run_asset_step, hcr2, hbe]

/-- C6 witness: a one-row archive for today, queried later the same day,
together with an empty fetch for an arbitrary other state. -/
theorem C6_idempotent_witness :
    (tsListI [(⟨⟨msPerDay, none, none, none, none, none, "A"⟩, []⟩ : IndRow)]).getLast? =
      some msPerDay ∧
    Int.fdiv (msPerDay + 5) msPerDay ≤ Int.fdiv msPerDay msPerDay ∧
    ((run_asset_step false 1 (msPerDay + 5) "A"
        (some [⟨⟨msPerDay, none, none, none, none, none, "A"⟩, []⟩])
        ⟨true, true, true, true, true, true, []⟩).archive =
      some [⟨⟨msPerDay, none, none, none, none, none, "A"⟩, []⟩]) := by
  refine ⟨by decide, by decide, ?_⟩
  exact (C6_idempotent 1 (msPerDay + 5) "A"
    [⟨⟨msPerDay, none, none, none, none, none, "A"⟩, []⟩] msPerDay
    ⟨true, true, true, true, true, true, []⟩ (by decide) (by decide)).2.1

/-- C7 counterexample: an asset whose archive is already up to date is
skipped (marked a success) and the loop body reaches `continue` before
`time.sleep(1.2)`: no pacing delay happens for it, contradicting "after
every asset's processing step, regardless of ... an up-to-date skip". -/
theorem C7_counterexample :
    (run_asset_step false 1 (msPerDay + 5) "A"
        (some [⟨⟨msPerDay, none, none, none, none, none, "A"⟩, []⟩])
        ⟨true, true, true, true, true, true, []⟩).pace = none ∧
    (run_asset_step false 1 (msPerDay + 5) "A"
        (some [⟨⟨msPerDay, none, none, none, none, none, "A"⟩, []⟩])
        ⟨true, true, true, true, true, true, []⟩).success = true := by
  refine ⟨by decide, by decide⟩

/-- C7 amended: the 1.2-unit pacing sleep happens after exactly those
assets for which the planner did not return the sentinel (fetch
successes and fetch failures alike); an up-to-date skip reaches
`continue` first and is not paced. -/
theorem C7_pacing_amended (full_historical : Bool) (days_back nowMs : ℤ)
    (asset : String) (arch : Option (List IndRow)) (b : RawBatch) :
    ((run_asset_step full_historical days_back nowMs asset arch b).pace = none ↔
      calculate_time_range full_historical (arch.map tsListI) days_back nowMs =
        RangeResult.noUpdate) ∧
    (calculate_time_range full_historical (arch.map tsListI) days_back nowMs ≠
        RangeResult.noUpdate →
      (run_asset_step full_historical days_back nowMs asset arch b).pace =
        some (6 / 5)) := by
  rcases hcr : calculate_time_range full_historical (arch.map tsListI) days_back nowMs
    with _ | ⟨s, e⟩
  · constructor
    · simp [run_asset_step, hcr]
    · intro h; exact absurd rfl h
  · rcases Bool.eq_false_or_eq_true b.rows.isEmpty with hb | hb
    · constructor
      · simp [run_asset_step, hcr, hb]
      · intro _; simp [run_asset_step, hcr, hb]
    · constructor
      · simp [run_asset_step, hcr, hb]
      · intro _; simp [run_asset_step, hcr, hb]

/-- C7 witness: a first-fetch asset (no archive) is paced. -/
theorem C7_pacing_amended_witness :
    (calculate_time_range false ((none : Option (List IndRow)).map tsListI) 1 0 ≠
        RangeResult.noUpdate) ∧
    (run_asset_step false 1 0 "A" none ⟨true, true, true, true, true, true, []⟩).pace =
      some (6 / 5) := by
  refine ⟨by decide, ?_⟩
  exact (C7_pacing_amended false 1 0 "A" none
    ⟨true, true, true, true, true, true, []⟩).2 (by decide)

/-- C8: when the planner asks for a window but the fetched batch, though
non-empty, is missing a required column, normalization rejects the whole
batch, nothing is persisted for the asset, and the asset is nevertheless
recorded as a success. -/
theorem C8_missing_columns_success (full_historical : Bool) (days_back nowMs : ℤ)
    (asset : String) (arch : Option (List IndRow)) (b : RawBatch) (s e : ℤ)
    (hw : calculate_time_range full_historical (arch.map tsListI) days_back nowMs =
      RangeResult.window s e)
    (hne : b.rows ≠ []) (hreq : requiredOk b = false) :
    (run_asset_step full_historical days_back nowMs asset arch b).archive = arch ∧
    (run_asset_step full_historical days_back nowMs asset arch b).success = true := by
  have hproc : process_ohlc_data b asset = [] := process_empty_of_not_required asset hreq
  have hbe : b.rows.isEmpty = false := List.isEmpty_eq_false.mpr hne
  constructor
  · simp [run_asset_step, hw, hbe, hproc, save_empty]
  · simp [run_asset_step, hw, hbe]

/-- C8 witness: a non-empty batch that lacks the volume column, against
an absent archive. -/
theorem C8_missing_columns_success_witness :
    (calculate_time_range false ((none : Option (List IndRow)).map tsListI) 1 0 =
      RangeResult.window (0 - 730 * msPerDay) 0) ∧
    (⟨true, true, true, true, true, false,
        [⟨0, .num 1, .num 1, .num 1, .num 1, .num 1⟩]⟩ : RawBatch).rows ≠ [] ∧
    requiredOk ⟨true, true, true, true, true, false,
        [⟨0, .num 1, .num 1, .num 1, .num 1, .num 1⟩]⟩ = false ∧
    (run_asset_step false 1 0 "A" none ⟨true, true, true, true, true, false,
        [⟨0, .num 1, .num 1, .num 1, .num 1, .num 1⟩]⟩).archive = none ∧
    (run_asset_step false 1 0 "A" none ⟨true, true, true, true, true, false,
        [⟨0, .num 1, .num 1, .num 1, .num 1, .num 1⟩]⟩).success = true := by
  refine ⟨by decide, by decide, by decide, ?_⟩
  exact C8_missing_columns_success false 1 0 "A" none _ (0 - 730 * msPerDay) 0
    (by decide) (by decide) (by decide)

/-- C9: with all required columns present the normalizer never rejects a
batch for value-level malformation: it returns empty exactly when the
batch has no rows, the produced frame is the Donchian computation over a
permutation of the coerced input rows (unparseable numeric cells become
NaN via `coerceNum`, the row is kept), and every input record reappears
as a row of the output. -/
theorem C9_nan_coercion (b : RawBatch) (asset : String)
    (hreq : requiredOk b = true) :
    (process_ohlc_data b asset = [] ↔ b.rows = []) ∧
    (∃ base : List Row, process_ohlc_data b asset = calculate_donchian_channels base ∧
      base.Perm (b.rows.map (toRow asset))) ∧
    (∀ rb ∈ b.rows, ∃ ir ∈ process_ohlc_data b asset, ir.row = toRow asset rb) := by
  by_cases hne : b.rows = []
  · have hbe : b.rows.isEmpty = true := List.isEmpty_iff.mpr hne
    have hp : process_ohlc_data b asset = [] := by simp [process_ohlc_data, hbe]
    refine ⟨⟨fun _ => hne, fun _ => hp⟩, ⟨[], ?_, ?_⟩, ?_⟩
    · rw [hp]; simp [calculate_donchian_channels]
    · rw [hne]; simp
    · intro rb h
      rw [hne] at h
      exact absurd h (List.not_mem_nil rb)
  · have hp := @process_eq b asset hreq hne
    refine ⟨⟨fun h => absurd h (process_ne_nil hreq hne), fun h => absurd h hne⟩,
      ⟨sortByKey Row.timestamp (b.rows.map (toRow asset)), hp,
        perm_sortByKey Row.timestamp (b.rows.map (toRow asset))⟩, ?_⟩
    intro rb hrb
    have hmem : toRow asset rb ∈ sortByKey Row.timestamp (b.rows.map (toRow asset)) :=
      (perm_sortByKey Row.timestamp (b.rows.map (toRow asset))).mem_iff.mpr
        (List.mem_map.mpr ⟨rb, hrb, rfl⟩)
    have hmap := calc_map_row (sortByKey Row.timestamp (b.rows.map (toRow asset)))
    rw [← hmap] at hmem
    rcases List.mem_map.mp hmem with ⟨ir, hir, hireq⟩
    exact ⟨ir, by rw [hp]; exact hir, hireq⟩

/-- C9 witness: a batch with a malformed volume cell: it is kept, not
discarded. -/
theorem C9_nan_coercion_witness :
    requiredOk ⟨true, true, true, true, true, true,
      [⟨0, .num 1, .num 2, .num 3, .num 4, .malformed⟩]⟩ = true ∧
    (∀ rb ∈ (⟨true, true, true, true, true, true,
        [⟨0, .num 1, .num 2, .num 3, .num 4, .malformed⟩]⟩ : RawBatch).rows,
      ∃ ir ∈ process_ohlc_data ⟨true, true, true, true, true, true,
        [⟨0, .num 1, .num 2, .num 3, .num 4, .malformed⟩]⟩ "A",
        ir.row = toRow "A" rb) := by
  refine ⟨by decide, ?_⟩
  exact (C9_nan_coercion ⟨true, true, true, true, true, true,
    [⟨0, .num 1, .num 2, .num 3, .num 4, .malformed⟩]⟩ "A" (by decide)).2.2

/-- C10: on the overwrite path (no existing archive, or `fullHistorical`
set) the persisted archive is exactly the normalized frame — no
deduplication happens there — so its timestamps are duplicate-free
exactly when the raw payload's `T` values are. -/
theorem C10_overwrite_no_dedup (arch : Option (List IndRow)) (full_historical : Bool)
    (b : RawBatch) (asset : String)
    (hov : arch = none ∨ full_historical = true)
    (hreq : requiredOk b = true) (hne : b.rows ≠ []) :
    save_asset_data arch (process_ohlc_data b asset) full_historical =
      some (process_ohlc_data b asset) ∧
    ((tsListI (process_ohlc_data b asset)).Nodup ↔ (b.rows.map RawBar.T).Nodup) := by
  constructor
  · exact save_overwrite (process_ne_nil hreq hne) hov
  · exact (ts_process_perm hreq hne).nodup_iff

/-- C10 witness: a fresh asset whose payload repeats a timestamp: the
stored frame keeps the duplicate. -/
theorem C10_overwrite_no_dedup_witness :
    ((none : Option (List IndRow)) = none ∨ false = true) ∧
    requiredOk ⟨true, true, true, true, true, true,
      [⟨0, .num 1, .num 1, .num 1, .num 1, .num 1⟩,
       ⟨0, .num 2, .num 2, .num 2, .num 2, .num 2⟩]⟩ = true ∧
    ((tsListI (process_ohlc_data ⟨true, true, true, true, true, true,
        [⟨0, .num 1, .num 1, .num 1, .num 1, .num 1⟩,
         ⟨0, .num 2, .num 2, .num 2, .num 2, .num 2⟩]⟩ "A")).Nodup ↔
      ((⟨true, true, true, true, true, true,
        [⟨0, .num 1, .num 1, .num 1, .num 1, .num 1⟩,
         ⟨0, .num 2, .num 2, .num 2, .num 2, .num 2⟩]⟩ : RawBatch).rows.map
          RawBar.T).Nodup) := by
  refine ⟨Or.inl rfl, by decide, ?_⟩
  exact (C10_overwrite_no_dedup none false ⟨true, true, true, true, true, true,
    [⟨0, .num 1, .num 1, .num 1, .num 1, .num 1⟩,
     ⟨0, .num 2, .num 2, .num 2, .num 2, .num 2⟩]⟩ "A"
    (Or.inl rfl) (by decide) (by decide)).2

theorem periods_pos : ∀ P ∈ donchian_periods, 1 ≤ P := by decide

theorem getD_map_high {rows : List Row} {j : ℕ} (hj : j < rows.length) :
    (rows.map Row.high).getD j none = (rows.getD j default).high := by
  have hj2 : j < (rows.map Row.high).length := by rw [List.length_map]; exact hj
  rw [List.getD_eq_getElem _ _ hj2, List.getD_eq_getElem _ _ hj, List.getElem_map]

theorem getD_map_low {rows : List Row} {j : ℕ} (hj : j < rows.length) :
    (rows.map Row.low).getD j none = (rows.getD j default).low := by
  have hj2 : j < (rows.map Row.low).length := by rw [List.length_map]; exact hj
  rw [List.getD_eq_getElem _ _ hj2, List.getD_eq_getElem _ _ hj, List.getElem_map]

/-- C2: on a frame whose `high`/`low` cells are all numeric, for every
configured period `P` and every index `i`: the Donchian cells attached at
`i` for `P` are absent when `i + 1 < P`, and otherwise
`donchian_high` is the maximum of `high` over indices `i-P+1 .. i`,
`donchian_low` the minimum of `low` over the same window, and
`donchian_mid` their arithmetic mean. -/
theorem C2_donchian_indicator (rows : List Row)
    (hall : ∀ r ∈ rows, r.high ≠ none ∧ r.low ≠ none)
    (P : ℕ) (hP : P ∈ donchian_periods) (i : ℕ) (hi : i < rows.length) :
    ∃ dh dl dm,
      (P, (dh, dl, dm)) ∈ ((calculate_donchian_channels rows).getD i default).dons ∧
      (i + 1 < P → dh = none ∧ dl = none ∧ dm = none) ∧
      (P ≤ i + 1 →
        ∃ a b, dh = some a ∧ dl = some b ∧ dm = some ((a + b) / 2) ∧
          (∃ j, i + 1 - P ≤ j ∧ j ≤ i ∧ (rows.getD j default).high = some a) ∧
          (∀ j, i + 1 - P ≤ j → j ≤ i →
            ∃ q, (rows.getD j default).high = some q ∧ q ≤ a) ∧
          (∃ j, i + 1 - P ≤ j ∧ j ≤ i ∧ (rows.getD j default).low = some b) ∧
          (∀ j, i + 1 - P ≤ j → j ≤ i →
            ∃ q, (rows.getD j default).low = some q ∧ b ≤ q)) := by
  refine ⟨rollMax (rows.map Row.high) P i, rollMin (rows.map Row.low) P i,
    vmid (rollMax (rows.map Row.high) P i) (rollMin (rows.map Row.low) P i), ?_, ?_, ?_⟩
  · rw [getD_calc hi]
    exact List.mem_map.mpr ⟨P, hP, rfl⟩
  · intro hlt
    rw [rollMax_eq_none hlt, rollMin_eq_none hlt]
    exact ⟨rfl, rfl, rfl⟩
  · intro hPi
    have hP1 : 1 ≤ P := periods_pos P hP
    have hihigh : i < (rows.map Row.high).length := by rw [List.length_map]; exact hi
    have hilow : i < (rows.map Row.low).length := by rw [List.length_map]; exact hi
    have hallh : ∀ v ∈ rows.map Row.high, v ≠ none := by
      intro v hv
      rcases List.mem_map.mp hv with ⟨r, hr, rfl⟩
      exact (hall r hr).1
    have halll : ∀ v ∈ rows.map Row.low, v ≠ none := by
      intro v hv
      rcases List.mem_map.mp hv with ⟨r, hr, rfl⟩
      exact (hall r hr).2
    rcases rollMax_spec hP1 hPi hihigh hallh with ⟨a, ha, ⟨ja, hja1, hja2, hja3⟩, hub⟩
    rcases rollMin_spec hP1 hPi hilow halll with ⟨c, hc, ⟨jc, hjc1, hjc2, hjc3⟩, hlb⟩
    refine ⟨a, c, ha, hc, by rw [ha, hc]; rfl, ?_, ?_, ?_, ?_⟩
    · refine ⟨ja, hja1, hja2, ?_⟩
      rw [← getD_map_high (by omega)]
      exact hja3
    · intro j hj1 hj2
      rcases hub j hj1 hj2 with ⟨q, hq, hqa⟩
      refine ⟨q, ?_, hqa⟩
      rw [← getD_map_high (by omega)]
      exact hq
    · refine ⟨jc, hjc1, hjc2, ?_⟩
      rw [← getD_map_low (by omega)]
      exact hjc3
    · intro j hj1 hj2
      rcases hlb j hj1 hj2 with ⟨q, hq, hqc⟩
      refine ⟨q, ?_, hqc⟩
      rw [← getD_map_low (by omega)]
      exact hq

/-- The concrete five-bar frame used to witness C2. -/
def c2Rows : List Row :=
  [⟨1, some 1, some 3, some 1, some 2, some 1, "A"⟩,
   ⟨2, some 2, some 7, some 2, some 3, some 1, "A"⟩,
   ⟨3, some 3, some 5, some 0, some 4, some 1, "A"⟩,
   ⟨4, some 4, some 6, some 4, some 5, some 1, "A"⟩,
   ⟨5, some 5, some 4, some 3, some 6, some 1, "A"⟩]

/-- C2 witness: the five-bar frame, period 5, last index. -/
theorem C2_donchian_indicator_witness :
    (∀ r ∈ c2Rows, r.high ≠ none ∧ r.low ≠ none) ∧ 5 ∈ donchian_periods ∧
      4 < c2Rows.length ∧
    (∃ dh dl dm,
      (5, (dh, dl, dm)) ∈ ((calculate_donchian_channels c2Rows).getD 4 default).dons ∧
      (4 + 1 < 5 → dh = none ∧ dl = none ∧ dm = none) ∧
      (5 ≤ 4 + 1 →
        ∃ a b, dh = some a ∧ dl = some b ∧ dm = some ((a + b) / 2) ∧
          (∃ j, 4 + 1 - 5 ≤ j ∧ j ≤ 4 ∧ (c2Rows.getD j default).high = some a) ∧
          (∀ j, 4 + 1 - 5 ≤ j → j ≤ 4 →
            ∃ q, (c2Rows.getD j default).high = some q ∧ q ≤ a) ∧
          (∃ j, 4 + 1 - 5 ≤ j ∧ j ≤ 4 ∧ (c2Rows.getD j default).low = some b) ∧
          (∀ j, 4 + 1 - 5 ≤ j → j ≤ 4 →
            ∃ q, (c2Rows.getD j default).low = some q ∧ b ≤ q))) :=
  ⟨by decide, by decide, by decide,
    C2_donchian_indicator c2Rows (by decide) 5 (by decide) 4 (by decide)⟩

theorem pairwise_lt_rows {l : List IndRow}
    (h1 : l.Pairwise (fun a b => a.row.timestamp ≤ b.row.timestamp))
    (h2 : (tsListI l).Nodup) :
    l.Pairwise (fun a b => a.row.timestamp < b.row.timestamp) := by
  have hne : l.Pairwise (fun a b => a.row.timestamp ≠ b.row.timestamp) :=
    List.pairwise_map.mp h2
  exact (h1.and hne).imp fun h => lt_of_le_of_ne h.1 h.2

/-- C1: merging a non-empty normalized frame into an existing archive
(both with duplicate-free timestamps, `fullHistorical` unset) persists
exactly the Donchian recomputation, over the indicator-stripped rows, of
a strictly-timestamp-sorted permutation of: the archive rows whose
timestamp does not occur in the new frame, plus all rows of the new
frame — so a freshly fetched row replaces any stored row with the same
timestamp ("newest wins"), days of both sides are all present, and no
stored indicator value survives the merge. -/
theorem C1_merge_newest_wins (ex new : List IndRow)
    (hex : (tsListI ex).Nodup) (hnew : (tsListI new).Nodup) (hne : new ≠ []) :
    ∃ base : List Row,
      save_asset_data (some ex) new false = some (calculate_donchian_channels base) ∧
      base.Perm
        ((ex.filter (fun r =>
            !(new.any (fun s => s.row.timestamp == r.row.timestamp)))).map IndRow.row
          ++ new.map IndRow.row) ∧
      base.Pairwise (fun a b => a.timestamp < b.timestamp) := by
  refine ⟨(sortByKey (fun r => r.row.timestamp) (dropDupKeepLast (ex ++ new))).map
    IndRow.row, ?_, ?_, ?_⟩
  · rw [save_merge hne]
    rfl
  · have hperm : ((sortByKey (fun r => r.row.timestamp)
        (dropDupKeepLast (ex ++ new))).map IndRow.row).Perm
        ((dropDupKeepLast (ex ++ new)).map IndRow.row) :=
      (perm_sortByKey (fun r => r.row.timestamp) (dropDupKeepLast (ex ++ new))).map
        IndRow.row
    refine hperm.trans ?_
    rw [dropDup_append hex hnew, List.map_append]
  · have hsorted := pairwise_le_sortByKey (fun r => r.row.timestamp)
      (dropDupKeepLast (ex ++ new))
    have hnodup : (tsListI (sortByKey (fun r => r.row.timestamp)
        (dropDupKeepLast (ex ++ new)))).Nodup := by
      have hp : (tsListI (sortByKey (fun r => r.row.timestamp)
          (dropDupKeepLast (ex ++ new)))).Perm (tsListI (dropDupKeepLast (ex ++ new))) :=
        (perm_sortByKey (fun r => r.row.timestamp) (dropDupKeepLast (ex ++ new))).map _
      exact hp.nodup_iff.mpr (nodup_ts_dropDup _)
    exact List.pairwise_map.mpr (pairwise_lt_rows hsorted hnodup)

/-- The stored archive of the C1 witness: days 1..10, each carrying a
stale stored indicator column. -/
def c1Ex : List IndRow :=
  (List.range 10).map fun k =>
    ⟨⟨(k : ℤ) + 1, some 1, some 1, some 1, some ((k : ℚ) + 1), some 1, "A"⟩,
     [(5, (some 999, some 999, some 999))]⟩

/-- The freshly fetched frame of the C1 witness: days 9..12, day 9
revised (close 100 instead of the stored 9). -/
def c1New : List IndRow :=
  [⟨⟨9, some 2, some 2, some 2, some 100, some 2, "A"⟩, []⟩,
   ⟨⟨10, some 2, some 2, some 2, some 10, some 2, "A"⟩, []⟩,
   ⟨⟨11, some 2, some 2, some 2, some 11, some 2, "A"⟩, []⟩,
   ⟨⟨12, some 2, some 2, some 2, some 12, some 2, "A"⟩, []⟩]

/-- C1 witness: the spec's example — archive days 1..10 merged with a
fetch of days 9..12 carrying a revised day 9. -/
theorem C1_merge_newest_wins_witness :
    (tsListI c1Ex).Nodup ∧ (tsListI c1New).Nodup ∧ c1New ≠ [] ∧
    (∃ base : List Row,
      save_asset_data (some c1Ex) c1New false = some (calculate_donchian_channels base) ∧
      base.Perm
        ((c1Ex.filter (fun r =>
            !(c1New.any (fun s => s.row.timestamp == r.row.timestamp)))).map IndRow.row
          ++ c1New.map IndRow.row) ∧
      base.Pairwise (fun a b => a.timestamp < b.timestamp)) :=
  ⟨by decide, by decide, by decide,
    C1_merge_newest_wins c1Ex c1New (by decide) (by decide) (by decide)⟩

theorem archiveOk_of_sorted_rows (base : List Row)
    (h1 : base.Pairwise (fun a b => a.timestamp ≤ b.timestamp))
    (h2 : (base.map Row.timestamp).Nodup) :
    archiveOk (some (calculate_donchian_channels base)) := by
  have hts : tsListI ((some (calculate_donchian_channels base)).getD []) =
      base.map Row.timestamp := by
    rw [Option.getD_some, tsListI_calc]
  constructor
  · rw [hts]; exact h2
  · rw [hts]
    refine List.chain'_iff_pairwise.mpr ?_
    have hle : (base.map Row.timestamp).Pairwise (· ≤ ·) := List.pairwise_map.mpr h1
    exact pairwise_lt_of_le_nodup hle h2

theorem ts_map_row_sort (l : List IndRow) :
    ((sortByKey (fun r => r.row.timestamp) l).map IndRow.row).map Row.timestamp =
      tsListI (sortByKey (fun r => r.row.timestamp) l) := by
  rw [List.map_map]; rfl

theorem step_archiveOk (full_historical : Bool) (days_back nowMs : ℤ) (asset : String)
    (arch : Option (List IndRow)) (b : RawBatch)
    (h : archiveOk arch) (hb : (b.rows.map RawBar.T).Nodup) :
    archiveOk (run_asset_step full_historical days_back nowMs asset arch b).archive := by
  rcases hcr : calculate_time_range full_historical (arch.map tsListI) days_back nowMs
    with _ | ⟨s, e⟩
  · simpa [run_asset_step, hcr] using h
  · rcases Bool.eq_false_or_eq_true b.rows.isEmpty with hbe | hbe
    · -- fetch returned an empty list: the asset is marked failed, archive untouched
      simpa [run_asset_step, hcr, hbe] using h
    · have hne : b.rows ≠ [] := List.isEmpty_eq_false.mp hbe
      rcases Bool.eq_false_or_eq_true (requiredOk b) with hreq | hreq
      · -- batch accepted: the normalized frame is saved
        have hproc := @process_eq b asset hreq hne
        have hdfne : process_ohlc_data b asset ≠ [] := process_ne_nil hreq hne
        have harch : (run_asset_step full_historical days_back nowMs asset arch b).archive =
            save_asset_data arch (process_ohlc_data b asset) full_historical := by
          simp [run_asset_step, hcr, hbe]
        rw [harch]
        have hsortperm : ((sortByKey Row.timestamp (b.rows.map (toRow asset))).map
            Row.timestamp).Perm (b.rows.map RawBar.T) := by
          have h1 := (perm_sortByKey Row.timestamp (b.rows.map (toRow asset))).map
            Row.timestamp
          have h2 : (b.rows.map (toRow asset)).map Row.timestamp = b.rows.map RawBar.T := by
            rw [List.map_map]; rfl
          rw [h2] at h1
          exact h1
        rcases arch with _ | ex
        · -- no archive yet: overwrite path
          rw [save_overwrite hdfne (Or.inl rfl), hproc]
          exact archiveOk_of_sorted_rows _ (pairwise_le_sortByKey _ _)
            (hsortperm.nodup_iff.mpr hb)
        · rcases full_historical with _ | _
          · -- merge path
            rw [save_merge hdfne]
            have hmerge : recalculate_donchian_for_existing
                (sortByKey (fun r => r.row.timestamp)
                  (dropDupKeepLast (ex ++ process_ohlc_data b asset))) =
                calculate_donchian_channels
                  ((sortByKey (fun r => r.row.timestamp)
                    (dropDupKeepLast (ex ++ process_ohlc_data b asset))).map IndRow.row) :=
              rfl
            rw [hmerge]
            refine archiveOk_of_sorted_rows _ (List.pairwise_map.mpr ?_) ?_
            · exact pairwise_le_sortByKey _ _
            · rw [ts_map_row_sort]
              have hp : (tsListI (sortByKey (fun r => r.row.timestamp)
                  (dropDupKeepLast (ex ++ process_ohlc_data b asset)))).Perm
                  (tsListI (dropDupKeepLast (ex ++ process_ohlc_data b asset))) :=
                (perm_sortByKey _ _).map _
              exact hp.nodup_iff.mpr (nodup_ts_dropDup _)
          · -- full-historical overwrite of an existing archive
            rw [save_overwrite hdfne (Or.inr rfl), hproc]
            exact archiveOk_of_sorted_rows _ (pairwise_le_sortByKey _ _)
              (hsortperm.nodup_iff.mpr hb)
      · -- batch missing a required column: nothing saved
        have hproc := process_empty_of_not_required asset hreq
        have harch : (run_asset_step full_historical days_back nowMs asset arch b).archive =
            arch := by
          simp [run_asset_step, hcr, hbe, hproc, save_empty]
        rw [harch]
        exact h

/-- The duplicate-timestamp payload of the C3 counterexample. -/
def c3Batch : RawBatch :=
  ⟨true, true, true, true, true, true,
   [⟨0, .malformed, .malformed, .malformed, .malformed, .malformed⟩,
    ⟨0, .malformed, .malformed, .malformed, .malformed, .malformed⟩]⟩

/-- C3 counterexample: one full-historical run whose payload repeats a
timestamp persists an archive with two rows of equal timestamp (the
overwrite path never deduplicates), so the invariant does not hold after
arbitrary runs without an assumption on the payloads. -/
theorem C3_counterexample :
    ¬ archiveOk (runSeq "A" none [⟨true, 1, 0, c3Batch⟩]) ∧
    tsListI ((runSeq "A" none [⟨true, 1, 0, c3Batch⟩]).getD []) = [0, 0] := by
  refine ⟨by decide, by decide⟩

/-- C3 amended: provided every fetched payload carries pairwise-distinct
timestamps, then starting from a valid state (e.g. no archive), after any
number of runs interleaving full-historical and incremental modes the
persisted archive has duplicate-free, strictly increasing timestamps. -/
theorem C3_archive_invariant_amended (asset : String) (inputs : List RunInput)
    (arch0 : Option (List IndRow)) (h0 : archiveOk arch0)
    (hbatch : ∀ inp ∈ inputs, (inp.batch.rows.map RawBar.T).Nodup) :
    archiveOk (runSeq asset arch0 inputs) := by
  induction inputs generalizing arch0 with
  | nil => simpa [runSeq] using h0
  | cons inp rest ih =>
    rw [runSeq]
    exact ih _
      (step_archiveOk inp.fh inp.daysBack inp.nowMs asset arch0 inp.batch h0
        (hbatch inp (List.mem_cons_self _ _)))
      (fun i hi => hbatch i (List.mem_cons_of_mem _ hi))

/-- C3 witness: two runs — a first historical fetch of days 0 and 1, then
an incremental run appending day 2 — starting from no archive. -/
theorem C3_archive_invariant_amended_witness :
    archiveOk (none : Option (List IndRow)) ∧
    (∀ inp ∈ ([⟨true, 1, 2 * msPerDay,
          ⟨true, true, true, true, true, true,
           [⟨0, .num 1, .num 1, .num 1, .num 1, .num 1⟩,
            ⟨msPerDay, .num 2, .num 2, .num 2, .num 2, .num 2⟩]⟩⟩,
        ⟨false, 1, 2 * msPerDay + 9,
          ⟨true, true, true, true, true, true,
           [⟨2 * msPerDay, .num 3, .num 3, .num 3, .num 3, .num 3⟩]⟩⟩] : List RunInput),
      (inp.batch.rows.map RawBar.T).Nodup) ∧
    archiveOk (runSeq "A" none
      [⟨true, 1, 2 * msPerDay,
          ⟨true, true, true, true, true, true,
           [⟨0, .num 1, .num 1, .num 1, .num 1, .num 1⟩,
            ⟨msPerDay, .num 2, .num 2, .num 2, .num 2, .num 2⟩]⟩⟩,
        ⟨false, 1, 2 * msPerDay + 9,
          ⟨true, true, true, true, true, true,
           [⟨2 * msPerDay, .num 3, .num 3, .num 3, .num 3, .num 3⟩]⟩⟩]) :=
  ⟨by decide, by decide,
    C3_archive_invariant_amended "A" _ none (by decide) (by decide)⟩

end DailyOHLC
